import Mathlib

/-!
Verification of the requirements-to-pyproject conversion scripts
(`requirements_to_pyproject.py` and `uv_requirements_to_pyproject.py`;
the parsing/formatting core is identical in both files).

Strings are modelled as `List Char`.  Python's `str.strip()` and the regex
class `\s` are modelled over the ASCII whitespace characters
` \t\n\r\x0b\x0c` (the inputs of interest are ASCII).  Scanning loops that
Python's `re` module performs (`re.sub`, `re.findall`) are written with an
explicit fuel argument equal to the length of the scanned list; every step
consumes at least one character and one unit of fuel, so the fuel never
runs out on the initial call.
-/

/-- ASCII whitespace, the characters stripped by Python's `str.strip()`
and matched by the regex class `\s` on ASCII input. -/
def isPySpace (c : Char) : Bool :=
  c == ' ' || c == '\t' || c == '\n' || c == '\r' || c == '\x0b' || c == '\x0c'

/-- Python `str.lstrip()`. -/
def lstrip (l : List Char) : List Char := l.dropWhile isPySpace

/-- Python `str.rstrip()`. -/
def rstrip (l : List Char) : List Char :=
  (l.reverse.dropWhile isPySpace).reverse

/-- Python `str.strip()`: drop leading and trailing whitespace. -/
def pyStrip (l : List Char) : List Char := rstrip (lstrip l)

/-- Python `s.split("\n")`: split at every newline, keeping empty pieces. -/
def splitOnNl : List Char → List (List Char)
  | [] => [[]]
  | c :: rest =>
    if c = '\n' then [] :: splitOnNl rest
    else
      match splitOnNl rest with
      | [] => [[c]]
      | l :: ls => (c :: l) :: ls

/-- One iteration of the loop in `parse_requirements`: strip the line, skip
blank lines, full-line comments (`#`) and option lines (`-`), truncate at
the first `#`, re-strip, and skip if the truncation left nothing. -/
def parseLine (line : List Char) : Option (List Char) :=
  let l := pyStrip line
  if l.isEmpty then none
  else if l.head? = some '#' then none
  else if l.head? = some '-' then none
  else
    let l2 := pyStrip (l.takeWhile (fun c => c ≠ '#'))
    if l2.isEmpty then none else some l2

/-- The accumulating loop of `parse_requirements` over the file's lines. -/
def parseLoop : List (List Char) → List (List Char)
  | [] => []
  | line :: rest =>
    match parseLine line with
    | none => parseLoop rest
    | some r => r :: parseLoop rest

/-- `parse_requirements`: the file content is iterated line by line (Python
`for line in file`; the trailing newline each such line carries is removed
by the initial `strip()`, so splitting on newline is equivalent). -/
def parse_requirements (content : List Char) : List (List Char) :=
  parseLoop (splitOnNl content)

/-- The regex class `[a-zA-Z0-9_\-\.]` of `name_pattern`. -/
def isNameChar (c : Char) : Bool :=
  ('a' ≤ c && c ≤ 'z') || ('A' ≤ c && c ≤ 'Z') || ('0' ≤ c && c ≤ '9') ||
    c == '_' || c == '-' || c == '.'

/-- The regex class `[=<>!~]` opening `version_pattern`. -/
def isOpChar (c : Char) : Bool :=
  c == '=' || c == '<' || c == '>' || c == '!' || c == '~'

/-- The regex class `[0-9a-zA-Z\.\-\*]` closing `version_pattern`. -/
def isVersionChar (c : Char) : Bool :=
  ('0' ≤ c && c ≤ '9') || ('a' ≤ c && c ≤ 'z') || ('A' ≤ c && c ≤ 'Z') ||
    c == '.' || c == '-' || c == '*'

/-- One left-to-right pass of `re.sub(r"\[[^\]]+\]", "", req)`: at a `[`,
if at least one non-`]` character is followed by a `]`, the whole bracketed
group is deleted and scanning resumes after it; otherwise (and at any other
character) the character is kept and scanning advances by one. -/
def removeExtras : Nat → List Char → List Char
  | 0, l => l
  | _ + 1, [] => []
  | fuel + 1, c :: rest =>
    if c = '[' then
      -- `rest.dropWhile (· ≠ ']')` is either empty (no closing `]`) or starts
      -- with `]`; the group matches when it is nonempty and at least one
      -- non-`]` character precedes it.
      if (rest.takeWhile (fun x => x ≠ ']')).isEmpty ||
          (rest.dropWhile (fun x => x ≠ ']')).isEmpty then
        c :: removeExtras fuel rest
      else removeExtras fuel (rest.dropWhile (fun x => x ≠ ']')).tail
    else c :: removeExtras fuel rest

/-- `re.sub(r"\[[^\]]+\]", "", req)` with adequate fuel. -/
def stripExtras (l : List Char) : List Char := removeExtras l.length l

/-- Steps 1-2 of `format_dependency`: remove bracketed extras, truncate at
the first `;` (`req.split(";")[0]`) and strip whitespace. -/
def cleanRequirement (req : List Char) : List Char :=
  pyStrip ((stripExtras req).takeWhile (fun c => c ≠ ';'))

/-- `re.findall(r"([=<>!~]+\s*[0-9a-zA-Z\.\-\*]+)", req)`: left-to-right,
non-overlapping; a match at a position is one or more operator characters,
then any run of whitespace, then one or more version characters (the
character classes are pairwise disjoint, so the greedy match is exactly
the maximal-run decomposition); on failure the scan advances by one. -/
def findVersions : Nat → List Char → List (List Char)
  | 0, _ => []
  | _ + 1, [] => []
  | fuel + 1, c :: rest =>
    if isOpChar c then
      let ops := c :: rest.takeWhile isOpChar
      let r1 := rest.dropWhile isOpChar
      let sp := r1.takeWhile isPySpace
      let r2 := r1.dropWhile isPySpace
      let ver := r2.takeWhile isVersionChar
      if ver.isEmpty then findVersions fuel rest
      else (ops ++ sp ++ ver) :: findVersions fuel (r2.dropWhile isVersionChar)
    else findVersions fuel rest

/-- Python `sep.join(pieces)` for a one-character separator. -/
def joinSep (sep : Char) : List (List Char) → List Char
  | [] => []
  | [v] => v
  | v :: vs => v ++ sep :: joinSep sep vs

/-- `format_dependency`: clean the requirement, extract the leading name
(`^([a-zA-Z0-9_\-\.]+)`, i.e. the maximal name-character prefix; `None`
if empty), collect the version-specifier fragments, and join the stripped
fragments with `,` directly after the name. -/
def format_dependency (req : List Char) : Option (List Char) :=
  let r := cleanRequirement req
  let name := r.takeWhile isNameChar
  if name.isEmpty then none
  else
    let vs := findVersions r.length r
    if vs.isEmpty then some name
    else some (name ++ joinSep ',' (vs.map pyStrip))

/-- The loop body of `generate_dependencies_section`: keep each formatted
dependency that is truthy in Python (not `None` and not the empty string). -/
def formatLoop : List (List Char) → List (List Char)
  | [] => []
  | req :: rest =>
    match format_dependency req with
    | some f => if f.isEmpty then formatLoop rest else f :: formatLoop rest
    | none => formatLoop rest

/-- The DependencyTokens emitted for a file's content. -/
def dependencyTokens (content : List Char) : List (List Char) :=
  formatLoop (parse_requirements content)

/-- The entry line built for one token: `f'    "{formatted}",'`. -/
def entryLine (t : List Char) : List Char :=
  "    \"".toList ++ t ++ "\",".toList

/-- `generate_dependencies_section`: assemble the dependencies block. -/
def generate_dependencies_section (content : List Char) : List Char :=
  let deps := (dependencyTokens content).map entryLine
  if deps.isEmpty then "dependencies = [\n]".toList
  else "dependencies = [\n".toList ++ joinSep '\n' deps ++ "\n]".toList

/-- The console messages `test_conversion` can print. -/
inductive ValidationMessage : Type
  | success (original output : Nat)
  | mismatch (original output : Nat)
  | skippedHint
  | duplicatesHint
deriving DecidableEq, Repr

/-- A line the validator excludes: its stripped form is one of the two
bracket lines (`line.strip() not in ["dependencies = [", "]"]`). -/
def bracketLine (l : List Char) : Bool :=
  pyStrip l == "dependencies = [".toList || pyStrip l == "]".toList

/-- The validator's recomputed output count: the number of lines of the
generated text whose stripped form is not a bracket line. -/
def outputCount (gen : List Char) : Nat :=
  ((splitOnNl gen).filter (fun l => !bracketLine l)).length

/-- `test_conversion` (identical to `validate_requirement_conversion` up to
the success message's wording): returns the boolean result together with
the messages printed, in order. -/
def test_conversion (content gen : List Char) : Bool × List ValidationMessage :=
  let original := (parse_requirements content).length
  let output := outputCount gen
  if original = output then (true, [.success original output])
  else if output < original then
    (false, [.mismatch original output, .skippedHint])
  else
    (false, [.mismatch original output, .duplicatesHint])

/-- The part of the pattern `dependencies\s*=\s*\[[\s\S]*?\]` after the
literal `dependencies`: greedy `\s*` then `=`, greedy `\s*` then `[`
(`=` and `[` are not whitespace, so greediness is exact), then the lazy
`[\s\S]*?\]`, which ends at the first `]`. Returns the rest of the input
after the match. -/
def matchAfterDeps (rest : List Char) : Option (List Char) :=
  let r0 := rest.dropWhile isPySpace
  if r0.head? = some '=' then
    let r1 := r0.tail.dropWhile isPySpace
    if r1.head? = some '[' then
      -- `r1.tail.dropWhile (· ≠ ']')` is empty when no `]` follows, and
      -- otherwise starts with the first `]`, where the lazy match ends.
      let r2 := r1.tail.dropWhile (fun c => c ≠ ']')
      if r2.head? = some ']' then some r2.tail else none
    else none
  else none

/-- Try the pattern `dependencies\s*=\s*\[[\s\S]*?\]` at the head of the
input: the literal `dependencies` followed by `matchAfterDeps`; on success
return the remaining input after the match. -/
def tryMatchDeps (l : List Char) : Option (List Char) :=
  if l.take 12 = "dependencies".toList then matchAfterDeps (l.drop 12) else none

/-- The scan of `re.sub`: at each position try the pattern; on a match,
emit the replacement and continue after the match (non-overlapping);
otherwise copy one character.  The replacement block contains no
backslash, so Python's replacement-escape processing is the identity. -/
def reSubAux (repl : List Char) : Nat → List Char → List Char
  | 0, l => l
  | _ + 1, [] => []
  | fuel + 1, c :: rest =>
    match tryMatchDeps (c :: rest) with
    | some r' => repl ++ reSubAux repl fuel r'
    | none => c :: reSubAux repl fuel rest

/-- `re.sub(r"dependencies\s*=\s*\[[\s\S]*?\]", repl, content)`. -/
def re_sub_dependencies (repl content : List Char) : List Char :=
  reSubAux repl content.length content

/-- Whether the pattern `dependencies\s*=\s*\[[\s\S]*?\]` matches anywhere
in the content. -/
def hasDepsMatch : List Char → Bool
  | [] => false
  | c :: rest => (tryMatchDeps (c :: rest)).isSome || hasDepsMatch rest

/-- A Python return value that is either a `bool` or an `int` (the dynamic
return type of `copy_dependencies_to_pyproject`: `False` on a missing
file, otherwise the character count returned by `Path.write_text`). -/
inductive PyReturn : Type
  | bool (b : Bool)
  | int (n : Nat)
deriving DecidableEq, Repr

/-- Python truthiness of such a value (`if success:` in `main`). -/
def pyTruthy : PyReturn → Bool
  | .bool b => b
  | .int n => n != 0

/-- `copy_dependencies_to_pyproject`: if the manifest exists, substitute
the dependencies for every pattern match in its content, write the result
back and return `write_text`'s character count; otherwise return `False`.
The first component is the resulting file content. -/
def copy_dependencies_to_pyproject (pyprojectExists : Bool)
    (content deps : List Char) : List Char × PyReturn :=
  if pyprojectExists then
    let updated := re_sub_dependencies deps content
    (updated, .int updated.length)
  else (content, .bool false)

/-! ### Helper lemmas about the Python string primitives -/

theorem mem_of_mem_dropWhile {p : Char → Bool} {a : Char} {l : List Char}
    (h : a ∈ l.dropWhile p) : a ∈ l :=
  List.Sublist.mem h (List.dropWhile_sublist p)

theorem mem_of_mem_takeWhile {p : Char → Bool} {a : Char} {l : List Char}
    (h : a ∈ l.takeWhile p) : a ∈ l :=
  List.Sublist.mem h (List.takeWhile_sublist p)

theorem mem_of_mem_rstrip {a : Char} {l : List Char} (h : a ∈ rstrip l) : a ∈ l := by
  unfold rstrip at h
  rw [List.mem_reverse] at h
  exact List.mem_reverse.mp (mem_of_mem_dropWhile h)

theorem mem_of_mem_pyStrip {a : Char} {l : List Char} (h : a ∈ pyStrip l) : a ∈ l :=
  mem_of_mem_dropWhile (mem_of_mem_rstrip h)

theorem rstrip_isPrefix (l : List Char) : rstrip l <+: l := by
  have h : (rstrip l).reverse <:+ l.reverse := by
    unfold rstrip
    rw [List.reverse_reverse]
    exact List.dropWhile_suffix isPySpace
  exact List.reverse_suffix.mp h

theorem head?_of_isPrefix {l₁ l₂ : List Char} {a : Char} (h : l₁ <+: l₂)
    (ha : l₁.head? = some a) : l₂.head? = some a := by
  obtain ⟨t, rfl⟩ := h
  cases l₁ with
  | nil => simp at ha
  | cons x xs => simp at ha ⊢; exact ha

theorem head?_lstrip_not_space {l : List Char} {c : Char}
    (h : (lstrip l).head? = some c) : isPySpace c = false := by
  have h2 := List.head?_dropWhile_not isPySpace l
  rw [show l.dropWhile isPySpace = lstrip l from rfl, h] at h2
  exact h2

theorem head?_pyStrip_not_space {l : List Char} {c : Char}
    (h : (pyStrip l).head? = some c) : isPySpace c = false :=
  head?_lstrip_not_space (head?_of_isPrefix (rstrip_isPrefix (lstrip l)) h)

theorem rstrip_eq_self {l : List Char} {b : Char} (hb : l.getLast? = some b)
    (hsb : isPySpace b = false) : rstrip l = l := by
  have hr : l.reverse.head? = some b := by rw [List.head?_reverse]; exact hb
  unfold rstrip
  cases hrev : l.reverse with
  | nil => rw [hrev] at hr; simp at hr
  | cons y s =>
    rw [hrev] at hr
    simp only [List.head?_cons, Option.some.injEq] at hr
    subst hr
    rw [List.dropWhile_cons_of_neg (by simp [hsb]), ← hrev, List.reverse_reverse]

theorem rstrip_ne_nil {c : Char} {t : List Char} (h : isPySpace c = false) :
    rstrip (c :: t) ≠ [] := by
  intro hnil
  have h2 : (c :: t).reverse.dropWhile isPySpace = [] := by
    have := congrArg List.reverse hnil
    simpa [rstrip] using this
  rw [List.dropWhile_eq_nil_iff] at h2
  have := h2 c (by simp)
  simp [h] at this

theorem pyStrip_eq_self {l : List Char} {a b : Char} (ha : l.head? = some a)
    (hsa : isPySpace a = false) (hb : l.getLast? = some b)
    (hsb : isPySpace b = false) : pyStrip l = l := by
  have hl : lstrip l = l := by
    cases l with
    | nil => simp at ha
    | cons x xs =>
      simp only [List.head?_cons, Option.some.injEq] at ha
      subst ha
      exact List.dropWhile_cons_of_neg (by simp [hsa])
  unfold pyStrip
  rw [hl]
  exact rstrip_eq_self hb hsb

/-! ### Character-class facts -/

theorem opChar_not_space {c : Char} (h : isOpChar c = true) : isPySpace c = false := by
  simp only [isOpChar, Bool.or_eq_true, beq_iff_eq, or_assoc] at h
  rcases h with rfl | rfl | rfl | rfl | rfl <;> decide

theorem isPySpace_cases {c : Char} (h : isPySpace c = true) :
    c = ' ' ∨ c = '\t' ∨ c = '\n' ∨ c = '\r' ∨ c = '\x0b' ∨ c = '\x0c' := by
  simpa only [isPySpace, Bool.or_eq_true, beq_iff_eq, or_assoc] using h

theorem verChar_not_space {c : Char} (h : isVersionChar c = true) :
    isPySpace c = false := by
  by_contra hs
  have hs' : isPySpace c = true := by
    cases h2 : isPySpace c
    · exact absurd h2 hs
    · rfl
  rcases isPySpace_cases hs' with rfl | rfl | rfl | rfl | rfl | rfl <;>
    exact absurd h (by decide)

/-! ### Parser lemmas -/

theorem parseLoop_eq_filterMap (ls : List (List Char)) :
    parseLoop ls = ls.filterMap parseLine := by
  induction ls with
  | nil => rfl
  | cons line rest ih =>
    cases h : parseLine line <;> simp [parseLoop, List.filterMap_cons, h, ih]

theorem parseLine_some_eq {line r : List Char} (h : parseLine line = some r) :
    r = pyStrip ((pyStrip line).takeWhile (fun c => c ≠ '#')) := by
  unfold parseLine at h
  dsimp only at h
  split at h
  · exact absurd h (by simp)
  split at h
  · exact absurd h (by simp)
  split at h
  · exact absurd h (by simp)
  split at h
  · exact absurd h (by simp)
  simp only [Option.some.injEq] at h
  exact h.symm

theorem parseLine_subset {line r : List Char} (h : parseLine line = some r) :
    ∀ a ∈ r, a ∈ line := by
  intro a ha
  rw [parseLine_some_eq h] at ha
  exact mem_of_mem_pyStrip (mem_of_mem_takeWhile (mem_of_mem_pyStrip ha))

theorem ne_nil_of_isEmpty_eq_false {l : List Char} (h : l.isEmpty = false) :
    l ≠ [] := by
  cases l <;> simp_all

/-! ### Formatter lemmas -/

theorem format_dependency_some_ne_nil {req f : List Char}
    (h : format_dependency req = some f) : f ≠ [] := by
  unfold format_dependency at h
  dsimp only at h
  split at h
  · exact absurd h (by simp)
  rename_i hname
  split at h
  · simp only [Option.some.injEq] at h
    subst h
    exact ne_nil_of_isEmpty_eq_false (by simp_all)
  · simp only [Option.some.injEq] at h
    subst h
    intro hcontra
    exact ne_nil_of_isEmpty_eq_false (by simp_all)
      (List.append_eq_nil.mp hcontra).1

theorem formatLoop_eq_filterMap (reqs : List (List Char)) :
    formatLoop reqs = reqs.filterMap format_dependency := by
  induction reqs with
  | nil => rfl
  | cons req rest ih =>
    cases h : format_dependency req with
    | none => simp [formatLoop, h, ih, List.filterMap_cons]
    | some f =>
      have hne : f.isEmpty = false := by
        have := format_dependency_some_ne_nil h
        cases f with
        | nil => exact absurd rfl this
        | cons _ _ => rfl
      simp [formatLoop, h, hne, ih, List.filterMap_cons]

/-- C1: for every input file, the number of DependencyTokens emitted by
`generate_dependencies_section` is at most the number of Requirements
returned by `parse_requirements` for the same file: each requirement yields
at most one token, and unparseable requirements are dropped. -/
theorem tokens_le_requirements (content : List Char) :
    (dependencyTokens content).length ≤ (parse_requirements content).length := by
  unfold dependencyTokens
  rw [formatLoop_eq_filterMap]
  exact List.length_filterMap_le _ _

/-- C5: the four concrete mappings of `format_dependency`: a simple pinned
requirement round-trips, extras are stripped, environment markers are
stripped, a bare name stays a bare name. -/
theorem format_dependency_examples :
    format_dependency "pkg==1.2.3".toList = some "pkg==1.2.3".toList ∧
    format_dependency "pkg[extra]>=1.0".toList = some "pkg>=1.0".toList ∧
    format_dependency "pkg>=1.0; python_version>=\x273.8\x27".toList
      = some "pkg>=1.0".toList ∧
    format_dependency "pkg".toList = some "pkg".toList := by decide

/-- C2 counterexample: the claim says all whitespace inside a
version-specifier fragment is stripped, so the token contains no
whitespace; but Python's `str.strip` only removes leading and trailing
whitespace, so the space of the fragment `>= 1.0` survives into the
token. -/
theorem format_dependency_inner_space_counterexample :
    format_dependency "pkg >= 1.0".toList = some "pkg>= 1.0".toList ∧
      ' ' ∈ "pkg>= 1.0".toList := by decide

/-- C3 counterexample: the claim says the line is truncated at the first
unescaped `#`, so an escaped `#` does not end the requirement text; but
`line.split("#")[0]` truncates at the first `#` unconditionally, so the
requirement emitted for `pkg\#name==1.0` is `pkg\`, not the full text. -/
theorem parse_escaped_hash_counterexample :
    parse_requirements "pkg\\#name==1.0".toList = ["pkg\\".toList] ∧
      "pkg\\".toList ≠ "pkg\\#name==1.0".toList := by decide

/-- C3 (amended): for every non-comment, non-option input line, the Line
Parser truncates the stripped line at the first `#` character — whether
escaped or not — and re-strips whitespace before emitting the Requirement;
in particular an emitted Requirement never contains `#`. -/
theorem parseLine_truncation_spec (line r : List Char)
    (h : parseLine line = some r) :
    '#' ∉ r ∧ r = pyStrip ((pyStrip line).takeWhile (fun c => c ≠ '#')) := by
  refine ⟨?_, parseLine_some_eq h⟩
  intro hmem
  rw [parseLine_some_eq h] at hmem
  have h2 := List.mem_takeWhile_imp (mem_of_mem_pyStrip hmem)
  simp at h2

/-- Witness for the amended C3 at the line `  pkg==1.0  # comment`. -/
theorem parseLine_truncation_spec_witness :
    '#' ∉ "pkg==1.0".toList ∧
      "pkg==1.0".toList
        = pyStrip ((pyStrip "  pkg==1.0  # comment".toList).takeWhile
            (fun c => c ≠ '#')) :=
  parseLine_truncation_spec "  pkg==1.0  # comment".toList "pkg==1.0".toList
    (by decide)

/-- C4: `parse_requirements` emits no Requirement for a line that is blank
after stripping, whose first non-whitespace character is `#`, or that
begins with `-` after stripping; every other line survives and is emitted
exactly once, in original file order, with duplicates preserved and no
sorting (the parse is the order- and multiplicity-preserving `filterMap`
of the per-line parser over the file's lines). -/
theorem parse_requirements_spec (content line : List Char) :
    parse_requirements content = (splitOnNl content).filterMap parseLine ∧
    (pyStrip line = [] → parseLine line = none) ∧
    ((pyStrip line).head? = some '#' → parseLine line = none) ∧
    ((pyStrip line).head? = some '-' → parseLine line = none) ∧
    (∀ c t, pyStrip line = c :: t → c ≠ '#' → c ≠ '-' →
      (parseLine line).isSome = true) := by
  refine ⟨parseLoop_eq_filterMap _, ?_, ?_, ?_, ?_⟩
  · intro h
    simp [parseLine, h]
  · intro h
    have hne : (pyStrip line).isEmpty = false := by
      cases hl : pyStrip line with
      | nil => rw [hl] at h; simp at h
      | cons _ _ => rfl
    simp [parseLine, h, hne]
  · intro h
    have hne : (pyStrip line).isEmpty = false := by
      cases hl : pyStrip line with
      | nil => rw [hl] at h; simp at h
      | cons _ _ => rfl
    simp [parseLine, h, hne]
  · intro c t hline hc hd
    have hcs : isPySpace c = false :=
      head?_pyStrip_not_space (l := line) (by rw [hline]; rfl)
    have hl2 : (pyStrip (c :: t.takeWhile (fun x => x ≠ '#'))) ≠ [] := by
      unfold pyStrip lstrip
      rw [List.dropWhile_cons_of_neg (by simp [hcs])]
      exact rstrip_ne_nil hcs
    simp [parseLine, hline, List.takeWhile_cons_of_pos (by simp [hc] :
      (fun x => decide (x ≠ '#')) c = true), hc, hd]
    simpa using hl2

/-- Witness for C4: the order-preserving parse equation at a two-line file,
a blank line, a comment line and an option line are skipped, and an
ordinary requirement line survives. -/
theorem parse_requirements_spec_witness :
    parse_requirements "a\nb".toList
      = (splitOnNl "a\nb".toList).filterMap parseLine ∧
    parseLine "   ".toList = none ∧
    parseLine " # c".toList = none ∧
    parseLine "-e .".toList = none ∧
    (parseLine "pkg".toList).isSome = true :=
  ⟨(parse_requirements_spec "a\nb".toList []).1,
   (parse_requirements_spec [] "   ".toList).2.1 (by decide),
   (parse_requirements_spec [] " # c".toList).2.2.1 (by decide),
   (parse_requirements_spec [] "-e .".toList).2.2.2.1 (by decide),
   (parse_requirements_spec [] "pkg".toList).2.2.2.2 'p' "kg".toList
     (by decide) (by decide) (by decide)⟩

/-- C6: `format_dependency` returns nothing exactly when, after extras
removal and `;`-truncation, the cleaned string has no leading name-class
character (the anchored name pattern matches nothing); such a Requirement
is silently dropped from the token loop of
`generate_dependencies_section` — the emitted tokens are exactly those of
the remaining requirements (the embedded functions are pure and total, so
no error is raised and no message is produced for it). -/
theorem format_dependency_none_spec (req : List Char)
    (pre post : List (List Char)) :
    (format_dependency req = none ↔
      (cleanRequirement req).takeWhile isNameChar = []) ∧
    (format_dependency req = none →
      formatLoop (pre ++ req :: post) = formatLoop (pre ++ post)) := by
  constructor
  · constructor
    · intro h
      unfold format_dependency at h
      dsimp only at h
      split at h
      · rename_i hname
        exact List.isEmpty_iff.mp hname
      · split at h <;> simp at h
    · intro h
      unfold format_dependency
      dsimp only
      rw [if_pos (by simp [h])]
  · intro h
    rw [formatLoop_eq_filterMap, formatLoop_eq_filterMap,
      List.filterMap_append, List.filterMap_append,
      List.filterMap_cons_none h]

/-- Witness for C6 at the unparseable requirement `==1.0`, dropped between
requirements `a` and `b`. -/
theorem format_dependency_none_spec_witness :
    (format_dependency "==1.0".toList = none ↔
      (cleanRequirement "==1.0".toList).takeWhile isNameChar = []) ∧
    formatLoop (["a".toList] ++ "==1.0".toList :: ["b".toList])
      = formatLoop (["a".toList] ++ ["b".toList]) :=
  ⟨(format_dependency_none_spec "==1.0".toList ["a".toList] ["b".toList]).1,
   (format_dependency_none_spec "==1.0".toList ["a".toList] ["b".toList]).2
     (by decide)⟩

/-- Every fragment found by the version-specifier scan begins with an
operator character and ends with a version character, so Python's
per-fragment `strip()` — which removes leading and trailing whitespace
only — leaves it unchanged. -/
theorem pyStrip_findVersions : ∀ (fuel : Nat) (l : List Char),
    ∀ v ∈ findVersions fuel l, pyStrip v = v := by
  intro fuel
  induction fuel with
  | zero => intro l v hv; simp [findVersions] at hv
  | succ n ih =>
    intro l v hv
    cases l with
    | nil => simp [findVersions] at hv
    | cons c rest =>
      rw [findVersions] at hv
      by_cases hop : isOpChar c
      · rw [if_pos hop] at hv
        dsimp only at hv
        by_cases hver :
            (((rest.dropWhile isOpChar).dropWhile isPySpace).takeWhile
              isVersionChar).isEmpty = true
        · rw [if_pos hver] at hv
          exact ih _ _ hv
        · rw [if_neg hver] at hv
          rcases List.mem_cons.mp hv with rfl | hv2
          · have hvne :
                ((rest.dropWhile isOpChar).dropWhile isPySpace).takeWhile
                  isVersionChar ≠ [] := by
              simpa using hver
            have hb := List.getLast?_eq_getLast _ hvne
            have hbver : isVersionChar
                ((((rest.dropWhile isOpChar).dropWhile isPySpace).takeWhile
                  isVersionChar).getLast hvne) := by
              exact List.mem_takeWhile_imp (List.getLast_mem hvne)
            refine pyStrip_eq_self (a := c) (by simp) (opChar_not_space hop)
              ?_ (verChar_not_space hbver)
            rw [List.getLast?_append_of_ne_nil _ (by simp [hvne])]
            exact hb
          · exact ih _ _ hv2
      · rw [if_neg hop] at hv
        exact ih _ _ hv

/-- C2 (amended): when `format_dependency` finds version-specifier
fragments, the token is the name immediately followed by the fragments
joined with `,` and no separator after the name; each fragment is stripped
of leading and trailing whitespace only — a no-op, since a fragment starts
with an operator character and ends with a version character — so
whitespace between the operator and the version inside a fragment (as in
`>= 1.0`) is preserved in the token. -/
theorem format_dependency_join_spec (req r name : List Char)
    (vs : List (List Char)) (hr : cleanRequirement req = r)
    (hname : r.takeWhile isNameChar = name) (hn : name ≠ [])
    (hvs : findVersions r.length r = vs) (hv : vs ≠ []) :
    vs.map pyStrip = vs ∧
    format_dependency req = some (name ++ joinSep ',' vs) := by
  have hmap : vs.map pyStrip = vs := by
    have hall : ∀ v ∈ vs, pyStrip v = v := by
      intro v hvm
      rw [← hvs] at hvm
      exact pyStrip_findVersions _ _ v hvm
    calc vs.map pyStrip = vs.map id := List.map_congr_left hall
    _ = vs := List.map_id vs
  refine ⟨hmap, ?_⟩
  unfold format_dependency
  dsimp only
  rw [hr, hname, hvs, hmap, if_neg (by simp [hn]), if_neg (by simp [hv])]

/-- Witness for the amended C2 at `pkg >= 1.0`: the single fragment
`>= 1.0` is unchanged by stripping and is joined directly to the name,
keeping its inner space. -/
theorem format_dependency_join_spec_witness :
    [">= 1.0".toList].map pyStrip = [">= 1.0".toList] ∧
    format_dependency "pkg >= 1.0".toList
      = some ("pkg".toList ++ joinSep ',' [">= 1.0".toList]) :=
  format_dependency_join_spec "pkg >= 1.0".toList "pkg >= 1.0".toList
    "pkg".toList [">= 1.0".toList] (by decide) (by decide) (by decide)
    (by decide) (by decide)

/-! ### Line structure of the generated block -/

theorem splitOnNl_ne_nil : ∀ l : List Char, splitOnNl l ≠ [] := by
  intro l
  induction l with
  | nil => simp [splitOnNl]
  | cons c rest ih =>
    rw [splitOnNl]
    by_cases hc : c = '\n'
    · simp [hc]
    · rw [if_neg hc]
      cases hs : splitOnNl rest <;> simp [hs]

theorem mem_splitOnNl_no_newline : ∀ (content l : List Char),
    l ∈ splitOnNl content → '\n' ∉ l := by
  intro content
  induction content with
  | nil =>
    intro l hl
    simp [splitOnNl] at hl
    subst hl
    simp
  | cons c rest ih =>
    intro l hl
    rw [splitOnNl] at hl
    by_cases hc : c = '\n'
    · rw [if_pos hc] at hl
      rcases List.mem_cons.mp hl with rfl | hl2
      · simp
      · exact ih l hl2
    · rw [if_neg hc] at hl
      cases hs : splitOnNl rest with
      | nil => exact absurd hs (splitOnNl_ne_nil rest)
      | cons a as =>
        rw [hs] at hl
        dsimp only at hl
        rcases List.mem_cons.mp hl with rfl | hl2
        · intro hmem
          rcases List.mem_cons.mp hmem with h1 | hmem2
          · exact hc h1.symm
          · exact ih a (by rw [hs]; exact List.mem_cons_self _ _) hmem2
        · exact ih l (by rw [hs]; exact List.mem_cons_of_mem _ hl2)

theorem splitOnNl_append_nl : ∀ (a b : List Char), '\n' ∉ a →
    splitOnNl (a ++ '\n' :: b) = a :: splitOnNl b := by
  intro a
  induction a with
  | nil => intro b _; simp [splitOnNl]
  | cons c cs ih =>
    intro b hnl
    have hc : c ≠ '\n' := fun h => hnl (by rw [h]; exact List.mem_cons_self _ _)
    rw [List.cons_append, splitOnNl, if_neg hc,
      ih b (fun h => hnl (List.mem_cons_of_mem _ h))]

theorem splitOnNl_joinSep : ∀ (es : List (List Char)) (tail : List Char),
    es ≠ [] → (∀ e ∈ es, '\n' ∉ e) →
    splitOnNl (joinSep '\n' es ++ '\n' :: tail) = es ++ splitOnNl tail := by
  intro es
  induction es with
  | nil => intro tail h _; exact absurd rfl h
  | cons e es' ih =>
    intro tail _ hno
    cases es' with
    | nil =>
      rw [show joinSep '\n' [e] = e from rfl,
        splitOnNl_append_nl e tail (hno e (List.mem_cons_self _ _))]
      rfl
    | cons e2 es'' =>
      rw [show joinSep '\n' (e :: e2 :: es'')
          = e ++ '\n' :: joinSep '\n' (e2 :: es'') from rfl,
        List.append_assoc, List.cons_append,
        splitOnNl_append_nl e _ (hno e (List.mem_cons_self _ _)),
        ih tail (by simp) (fun x hx => hno x (List.mem_cons_of_mem _ hx))]
      rfl

/-! ### Characters of a token come from the requirement (plus `,`) -/

theorem mem_removeExtras : ∀ (fuel : Nat) (l : List Char) (a : Char),
    a ∈ removeExtras fuel l → a ∈ l := by
  intro fuel
  induction fuel with
  | zero => intro l a h; exact h
  | succ n ih =>
    intro l a h
    cases l with
    | nil => simp [removeExtras] at h
    | cons c rest =>
      rw [removeExtras] at h
      by_cases hc : c = '['
      · rw [if_pos hc] at h
        by_cases hcond : ((rest.takeWhile (fun x => x ≠ ']')).isEmpty ||
            (rest.dropWhile (fun x => x ≠ ']')).isEmpty) = true
        · rw [if_pos hcond] at h
          rcases List.mem_cons.mp h with rfl | h2
          · exact List.mem_cons_self _ _
          · exact List.mem_cons_of_mem _ (ih rest a h2)
        · rw [if_neg hcond] at h
          exact List.mem_cons_of_mem _
            (mem_of_mem_dropWhile (List.mem_of_mem_tail (ih _ a h)))
      · rw [if_neg hc] at h
        rcases List.mem_cons.mp h with rfl | h2
        · exact List.mem_cons_self _ _
        · exact List.mem_cons_of_mem _ (ih rest a h2)

theorem mem_cleanRequirement {a : Char} {req : List Char}
    (h : a ∈ cleanRequirement req) : a ∈ req :=
  mem_removeExtras _ _ _ (mem_of_mem_takeWhile (mem_of_mem_pyStrip h))

theorem mem_findVersions : ∀ (fuel : Nat) (l v : List Char),
    v ∈ findVersions fuel l → ∀ a ∈ v, a ∈ l := by
  intro fuel
  induction fuel with
  | zero => intro l v hv; simp [findVersions] at hv
  | succ n ih =>
    intro l v hv a ha
    cases l with
    | nil => simp [findVersions] at hv
    | cons c rest =>
      rw [findVersions] at hv
      by_cases hop : isOpChar c
      · rw [if_pos hop] at hv
        dsimp only at hv
        by_cases hver : (((rest.dropWhile isOpChar).dropWhile
            isPySpace).takeWhile isVersionChar).isEmpty = true
        · rw [if_pos hver] at hv
          exact List.mem_cons_of_mem _ (ih rest v hv a ha)
        · rw [if_neg hver] at hv
          rcases List.mem_cons.mp hv with rfl | hv2
          · rcases List.mem_append.mp ha with h12 | h3
            · rcases List.mem_append.mp h12 with h1 | h2
              · rcases List.mem_cons.mp h1 with rfl | h1b
                · exact List.mem_cons_self _ _
                · exact List.mem_cons_of_mem _ (mem_of_mem_takeWhile h1b)
              · exact List.mem_cons_of_mem _
                  (mem_of_mem_dropWhile (mem_of_mem_takeWhile h2))
            · exact List.mem_cons_of_mem _ (mem_of_mem_dropWhile
                (mem_of_mem_dropWhile (mem_of_mem_takeWhile h3)))
          · exact List.mem_cons_of_mem _ (mem_of_mem_dropWhile
              (mem_of_mem_dropWhile (mem_of_mem_dropWhile (ih _ v hv2 a ha))))
      · rw [if_neg hop] at hv
        exact List.mem_cons_of_mem _ (ih rest v hv a ha)

theorem mem_joinSep : ∀ (sep : Char) (vs : List (List Char)) (a : Char),
    a ∈ joinSep sep vs → a = sep ∨ ∃ v ∈ vs, a ∈ v := by
  intro sep vs
  induction vs with
  | nil => intro a ha; simp [joinSep] at ha
  | cons v vs' ih =>
    intro a ha
    cases vs' with
    | nil =>
      right
      exact ⟨v, List.mem_cons_self _ _, by rwa [show joinSep sep [v] = v from rfl] at ha⟩
    | cons v2 vs'' =>
      rw [show joinSep sep (v :: v2 :: vs'')
          = v ++ sep :: joinSep sep (v2 :: vs'') from rfl] at ha
      rcases List.mem_append.mp ha with h1 | h2
      · right; exact ⟨v, List.mem_cons_self _ _, h1⟩
      · rcases List.mem_cons.mp h2 with rfl | h3
        · left; rfl
        · rcases ih a h3 with h | ⟨w, hw, haw⟩
          · left; exact h
          · right; exact ⟨w, List.mem_cons_of_mem _ hw, haw⟩

theorem format_dependency_subset {req t : List Char}
    (h : format_dependency req = some t) : ∀ a ∈ t, a ∈ req ∨ a = ',' := by
  intro a ha
  unfold format_dependency at h
  dsimp only at h
  split at h
  · exact absurd h (by simp)
  split at h
  · simp only [Option.some.injEq] at h
    subst h
    exact Or.inl (mem_cleanRequirement (mem_of_mem_takeWhile ha))
  · simp only [Option.some.injEq] at h
    subst h
    rcases List.mem_append.mp ha with h1 | h2
    · exact Or.inl (mem_cleanRequirement (mem_of_mem_takeWhile h1))
    · rcases mem_joinSep ',' _ a h2 with rfl | ⟨w, hw, haw⟩
      · exact Or.inr rfl
      · rcases List.mem_map.mp hw with ⟨v, hv, rfl⟩
        exact Or.inl (mem_cleanRequirement
          (mem_findVersions _ _ v hv a (mem_of_mem_pyStrip haw)))

theorem dependencyTokens_no_newline (content : List Char) :
    ∀ t ∈ dependencyTokens content, '\n' ∉ t := by
  intro t ht hmem
  unfold dependencyTokens at ht
  rw [formatLoop_eq_filterMap] at ht
  rcases List.mem_filterMap.mp ht with ⟨req, hreq, hfmt⟩
  rcases format_dependency_subset hfmt '\n' hmem with hin | heq
  · rw [show parse_requirements content = parseLoop (splitOnNl content)
      from rfl, parseLoop_eq_filterMap] at hreq
    rcases List.mem_filterMap.mp hreq with ⟨line, hline, hpl⟩
    exact mem_splitOnNl_no_newline content line hline (parseLine_subset hpl '\n' hin)
  · exact absurd heq (by decide)

theorem entryLine_no_newline {t : List Char} (h : '\n' ∉ t) :
    '\n' ∉ entryLine t := by
  intro hm
  unfold entryLine at hm
  rcases List.mem_append.mp hm with h12 | h4
  · rcases List.mem_append.mp h12 with h1 | h3
    · exact absurd h1 (by decide)
    · exact h h3
  · exact absurd h4 (by decide)

/-- The lines of the generated block: the fixed header, one entry line per
emitted token, and the fixed closing bracket. -/
theorem generate_lines (content : List Char) :
    splitOnNl (generate_dependencies_section content)
      = "dependencies = [".toList ::
        ((dependencyTokens content).map entryLine ++ ["]".toList]) := by
  unfold generate_dependencies_section
  dsimp only
  cases htoks : dependencyTokens content with
  | nil => decide
  | cons t ts =>
    rw [if_neg (by simp)]
    have hnoNl : ∀ e ∈ (t :: ts).map entryLine, '\n' ∉ e := by
      intro e he
      rcases List.mem_map.mp he with ⟨tok, htok, rfl⟩
      exact entryLine_no_newline
        (dependencyTokens_no_newline content tok (by rw [htoks]; exact htok))
    rw [show "dependencies = [\n".toList
        = "dependencies = [".toList ++ ['\n'] from by decide,
      show "\n]".toList = '\n' :: "]".toList from by decide,
      List.append_assoc, List.append_assoc]
    simp only [List.cons_append, List.nil_append]
    rw [splitOnNl_append_nl _ _ (by decide),
      splitOnNl_joinSep _ _ (by simp) hnoNl,
      show splitOnNl "]".toList = ["]".toList] from by decide]

/-- C7: the assembled DependenciesBlock consists of the fixed header line
`dependencies = [`, then, for each DependencyToken in order, exactly one
line of four spaces, a double quote, the token, a double quote and a
comma, then the fixed closing line `]`; with zero tokens the block is
exactly the two-line string `dependencies = [\n]` with no body lines. -/
theorem generate_block_structure (content : List Char) :
    splitOnNl (generate_dependencies_section content)
      = "dependencies = [".toList ::
        ((dependencyTokens content).map entryLine ++ ["]".toList]) ∧
    (dependencyTokens content = [] →
      generate_dependencies_section content = "dependencies = [\n]".toList) := by
  refine ⟨generate_lines content, fun h => ?_⟩
  unfold generate_dependencies_section
  dsimp only
  rw [h]
  simp

/-- Witness for C7: a one-requirement file and the empty file. -/
theorem generate_block_structure_witness :
    splitOnNl (generate_dependencies_section "pkg\n".toList)
      = "dependencies = [".toList ::
        (["pkg".toList].map entryLine ++ ["]".toList]) ∧
    generate_dependencies_section "".toList = "dependencies = [\n]".toList := by
  constructor
  · have h := (generate_block_structure "pkg\n".toList).1
    rw [show dependencyTokens "pkg\n".toList = ["pkg".toList] from by decide] at h
    exact h
  · exact (generate_block_structure "".toList).2 (by decide)

/-! ### The validator -/

theorem pyStrip_entryLine (t : List Char) :
    pyStrip (entryLine t) = '"' :: (t ++ "\",".toList) := by
  have he : entryLine t
      = ' ' :: ' ' :: ' ' :: ' ' :: '"' :: (t ++ "\",".toList) := by
    unfold entryLine
    rw [show "    \"".toList = ' ' :: ' ' :: ' ' :: ' ' :: ['"'] from by decide,
      List.append_assoc]
    simp only [List.cons_append, List.nil_append]
  rw [he]
  unfold pyStrip lstrip
  rw [List.dropWhile_cons_of_pos (by decide), List.dropWhile_cons_of_pos (by decide),
    List.dropWhile_cons_of_pos (by decide), List.dropWhile_cons_of_pos (by decide),
    List.dropWhile_cons_of_neg (by decide)]
  apply rstrip_eq_self (b := ',')
  · rw [← List.cons_append,
      List.getLast?_append_of_ne_nil _ (by decide : "\",".toList ≠ [])]
    decide
  · decide

theorem bracketLine_entryLine (t : List Char) : bracketLine (entryLine t) = false := by
  have h1 : pyStrip (entryLine t) ≠ "dependencies = [".toList := by
    rw [pyStrip_entryLine]
    intro h
    have h2 : ('"' :: (t ++ "\",".toList)).head? = ("dependencies = [".toList).head? := by
      rw [h]
    rw [show ("dependencies = [".toList).head? = some 'd' from by decide] at h2
    simp only [List.head?_cons, Option.some.injEq] at h2
    exact absurd h2 (by decide)
  have h3 : pyStrip (entryLine t) ≠ "]".toList := by
    rw [pyStrip_entryLine]
    intro h
    have h2 : ('"' :: (t ++ "\",".toList)).head? = ("]".toList).head? := by
      rw [h]
    rw [show ("]".toList).head? = some ']' from by decide] at h2
    simp only [List.head?_cons, Option.some.injEq] at h2
    exact absurd h2 (by decide)
  unfold bracketLine
  rw [Bool.or_eq_false_iff]
  exact ⟨beq_eq_false_iff_ne.mpr h1, beq_eq_false_iff_ne.mpr h3⟩

/-- The validator's recomputed count of a generated block is exactly the
number of emitted tokens: the two bracket lines are excluded and every
entry line survives the filter. -/
theorem outputCount_generate (content : List Char) :
    outputCount (generate_dependencies_section content)
      = (dependencyTokens content).length := by
  unfold outputCount
  rw [generate_lines, List.filter_cons_of_neg (by decide), List.filter_append,
    List.filter_eq_self.mpr (by
      intro e he
      rcases List.mem_map.mp he with ⟨tok, _, rfl⟩
      simp [bracketLine_entryLine]),
    show List.filter (fun l => !bracketLine l) ["]".toList] = [] from by decide]
  simp

/-- C8: `test_conversion` recomputes the output count by excluding the two
bracket lines (for a generated block this equals the number of emitted
entry lines), returns `true` exactly when that count equals the number of
parsed Requirements, and on inequality returns `false` after printing both
counts plus one directional hint — the skipped hint when outputs are fewer
than inputs, the duplicates hint when outputs exceed inputs. -/
theorem test_conversion_spec (content gen : List Char) :
    ((test_conversion content gen).1 = true ↔
      (parse_requirements content).length = outputCount gen) ∧
    ((parse_requirements content).length = outputCount gen →
      test_conversion content gen
        = (true, [.success (parse_requirements content).length (outputCount gen)])) ∧
    (outputCount gen < (parse_requirements content).length →
      test_conversion content gen
        = (false, [.mismatch (parse_requirements content).length (outputCount gen),
            .skippedHint])) ∧
    ((parse_requirements content).length < outputCount gen →
      test_conversion content gen
        = (false, [.mismatch (parse_requirements content).length (outputCount gen),
            .duplicatesHint])) ∧
    outputCount (generate_dependencies_section content)
      = (dependencyTokens content).length := by
  refine ⟨?_, ?_, ?_, ?_, outputCount_generate content⟩
  · unfold test_conversion
    dsimp only
    by_cases he : (parse_requirements content).length = outputCount gen
    · rw [if_pos he]
      simp [he]
    · rw [if_neg he]
      split <;> simp [he]
  · intro he
    unfold test_conversion
    dsimp only
    rw [if_pos he]
  · intro hlt
    have hne : ¬ (parse_requirements content).length = outputCount gen := by omega
    unfold test_conversion
    dsimp only
    rw [if_neg hne, if_pos hlt]
  · intro hgt
    have hne : ¬ (parse_requirements content).length = outputCount gen := by omega
    have hnlt : ¬ outputCount gen < (parse_requirements content).length := by omega
    unfold test_conversion
    dsimp only
    rw [if_neg hne, if_neg hnlt]

/-- Witness for C8: a matching count reports success; a file with two
requirements against a one-line output reports the skipped hint; an empty
file against a one-line output reports the duplicates hint. -/
theorem test_conversion_spec_witness :
    test_conversion "a".toList (generate_dependencies_section "a".toList)
      = (true, [.success 1 1]) ∧
    test_conversion "a\nb".toList "x".toList
      = (false, [.mismatch 2 1, .skippedHint]) ∧
    test_conversion "".toList "x".toList
      = (false, [.mismatch 0 1, .duplicatesHint]) :=
  ⟨(test_conversion_spec "a".toList
      (generate_dependencies_section "a".toList)).2.1 (by decide),
   (test_conversion_spec "a\nb".toList "x".toList).2.2.1 (by decide),
   (test_conversion_spec "".toList "x".toList).2.2.2.1 (by decide)⟩

/-! ### Rewriting the manifest -/

theorem reSubAux_no_match (repl : List Char) : ∀ (fuel : Nat) (l : List Char),
    hasDepsMatch l = false → reSubAux repl fuel l = l := by
  intro fuel
  induction fuel with
  | zero => intro l _; rfl
  | succ n ih =>
    intro l h
    cases l with
    | nil => rfl
    | cons c rest =>
      rw [hasDepsMatch, Bool.or_eq_false_iff] at h
      rcases h with ⟨h1, h2⟩
      rw [reSubAux]
      cases hm : tryMatchDeps (c :: rest) with
      | some m => rw [hm] at h1; simp at h1
      | none =>
        dsimp only
        rw [ih rest h2]

/-- C9 counterexample: on a manifest containing two `dependencies = [...]`
blocks, the substitution (a `re.sub` with no count argument) does not
leave the later block unchanged — the result differs from the text in
which only the first block is replaced. -/
theorem copy_first_block_counterexample :
    (copy_dependencies_to_pyproject true
        "dependencies = []\nx = 1\ndependencies = []\n".toList
        "dependencies = [\n    \"a\",\n]".toList).1
      ≠ "dependencies = [\n    \"a\",\n]\nx = 1\ndependencies = []\n".toList := by
  decide

theorem tail_dropWhile_length {p : Char → Bool} {l : List Char} {c : Char}
    (h : (l.dropWhile p).head? = some c) :
    (l.dropWhile p).tail.length + 1 ≤ l.length := by
  have hsub : (l.dropWhile p).length ≤ l.length :=
    (List.dropWhile_sublist p).length_le
  have hne : l.dropWhile p ≠ [] := by
    intro hnil
    rw [hnil] at h
    simp at h
  have hpos : 0 < (l.dropWhile p).length := List.length_pos.mpr hne
  have ht : (l.dropWhile p).tail.length = (l.dropWhile p).length - 1 :=
    List.length_tail _
  omega

theorem matchAfterDeps_length {r m : List Char} (h : matchAfterDeps r = some m) :
    m.length + 3 ≤ r.length := by
  unfold matchAfterDeps at h
  dsimp only at h
  split at h
  case isTrue h1 =>
    split at h
    case isTrue h2 =>
      split at h
      case isTrue h3 =>
        simp only [Option.some.injEq] at h
        subst h
        have s1 := tail_dropWhile_length h1
        have s2 := tail_dropWhile_length h2
        have s3 := tail_dropWhile_length h3
        omega
      case isFalse => simp at h
    case isFalse => simp at h
  case isFalse => simp at h

theorem tryMatchDeps_length {l m : List Char} (h : tryMatchDeps l = some m) :
    m.length < l.length := by
  unfold tryMatchDeps at h
  split at h
  case isTrue ht =>
    have hma := matchAfterDeps_length h
    have hd : (l.drop 12).length = l.length - 12 := List.length_drop _ _
    have h12 : 12 ≤ l.length := by
      have hl := congrArg List.length ht
      simp only [List.length_take] at hl
      rw [show ("dependencies".toList).length = 12 from by decide] at hl
      omega
    omega
  case isFalse => simp at h

/-- Two sufficient fuels compute the same substitution: each scan step
consumes at least one character, so any fuel at least the input length is
enough. -/
theorem reSubAux_fuel_eq (repl : List Char) : ∀ (a b : Nat) (l : List Char),
    l.length ≤ a → l.length ≤ b → reSubAux repl a l = reSubAux repl b l := by
  intro a
  induction a with
  | zero =>
    intro b l h1 _
    have hl : l = [] := by
      cases l with
      | nil => rfl
      | cons x xs => simp at h1
    subst hl
    cases b <;> rfl
  | succ n ih =>
    intro b l h1 h2
    cases l with
    | nil => cases b <;> rfl
    | cons c rest =>
      cases b with
      | zero => simp at h2
      | succ k =>
        rw [reSubAux, reSubAux]
        cases hm : tryMatchDeps (c :: rest) with
        | some m =>
          dsimp only
          have hlt := tryMatchDeps_length hm
          simp only [List.length_cons] at hlt h1 h2
          rw [ih k m (by omega) (by omega)]
        | none =>
          dsimp only
          simp only [List.length_cons] at h1 h2
          rw [ih k rest (by omega) (by omega)]

/-- The scan of `re.sub` finds no match starting inside the first segment,
where the second segment is the text that follows it in the input. -/
def noMatchBefore : List Char → List Char → Bool
  | [], _ => true
  | c :: rest, tail => (tryMatchDeps (c :: (rest ++ tail))).isNone &&
      noMatchBefore rest tail

/-- A manifest assembled from segments: for each pair, text outside any
match followed by a matched block; then the trailing text. -/
def assembleManifest : List (List Char × List Char) → List Char → List Char
  | [], post => post
  | (s, b) :: rest, post => s ++ (b ++ assembleManifest rest post)

/-- The same manifest with every matched block replaced by `deps`. -/
def substitutedManifest (deps : List Char) :
    List (List Char × List Char) → List Char → List Char
  | [], post => post
  | (s, _) :: rest, post => s ++ (deps ++ substitutedManifest deps rest post)

/-- The decomposition is the one the left-to-right scan of `re.sub` finds:
no match starts inside any outside-text segment (in its context), each
block is a complete pattern match consuming exactly itself, and the
trailing text contains no match. -/
def validDecomp : List (List Char × List Char) → List Char → Bool
  | [], post => !hasDepsMatch post
  | (s, b) :: rest, post =>
    noMatchBefore s (b ++ assembleManifest rest post) &&
    (tryMatchDeps (b ++ assembleManifest rest post)
      == some (assembleManifest rest post)) &&
    validDecomp rest post

theorem reSubAux_skip_segment (repl : List Char) : ∀ (s tail : List Char)
    (fuel : Nat), noMatchBefore s tail = true →
    reSubAux repl (s.length + fuel) (s ++ tail) = s ++ reSubAux repl fuel tail := by
  intro s
  induction s with
  | nil => intro tail fuel _; simp
  | cons c s2 ih =>
    intro tail fuel h
    rw [noMatchBefore, Bool.and_eq_true] at h
    obtain ⟨h1, h2⟩ := h
    rw [Option.isNone_iff_eq_none] at h1
    have hlen : (c :: s2).length + fuel = (s2.length + fuel) + 1 := by
      simp only [List.length_cons]
      omega
    rw [hlen]
    simp only [List.cons_append]
    rw [reSubAux, h1]
    dsimp only
    rw [ih tail fuel h2]

theorem reSubAux_match_block (repl b tail : List Char) (fuel : Nat)
    (hm : tryMatchDeps (b ++ tail) = some tail) (hb : b ≠ []) :
    reSubAux repl (fuel + 1) (b ++ tail) = repl ++ reSubAux repl fuel tail := by
  cases b with
  | nil => exact absurd rfl hb
  | cons c b2 =>
    simp only [List.cons_append] at hm ⊢
    rw [reSubAux, hm]

/-- The global substitution on a decomposed manifest: every matched block
is replaced, every outside segment is kept verbatim. -/
theorem re_sub_decomp (deps : List Char) :
    ∀ (segs : List (List Char × List Char)) (post : List Char),
    validDecomp segs post = true →
    re_sub_dependencies deps (assembleManifest segs post)
      = substitutedManifest deps segs post := by
  intro segs
  induction segs with
  | nil =>
    intro post h
    rw [validDecomp] at h
    have hno : hasDepsMatch post = false := by simpa using h
    exact reSubAux_no_match deps _ post hno
  | cons sb rest ih =>
    intro post h
    obtain ⟨s, b⟩ := sb
    rw [validDecomp] at h
    simp only [Bool.and_eq_true, beq_iff_eq] at h
    obtain ⟨⟨hnb, hmatch⟩, hvalid⟩ := h
    have hbne : b ≠ [] := by
      intro hb
      subst hb
      simp only [List.nil_append] at hmatch
      have := tryMatchDeps_length hmatch
      omega
    show reSubAux deps (s ++ (b ++ assembleManifest rest post)).length
        (s ++ (b ++ assembleManifest rest post))
      = s ++ (deps ++ substitutedManifest deps rest post)
    have hlen : (s ++ (b ++ assembleManifest rest post)).length
        = s.length + (b ++ assembleManifest rest post).length := by simp
    rw [hlen, reSubAux_skip_segment deps s _ _ hnb]
    have hb1 : 0 < b.length := List.length_pos.mpr hbne
    have hfuel : (b ++ assembleManifest rest post).length
        = (b.length - 1 + (assembleManifest rest post).length) + 1 := by
      simp only [List.length_append]
      omega
    rw [hfuel, reSubAux_match_block deps b _ _ hmatch hbne,
      reSubAux_fuel_eq deps _ (assembleManifest rest post).length
        (assembleManifest rest post) (by omega) (Nat.le_refl _),
      show reSubAux deps (assembleManifest rest post).length
          (assembleManifest rest post)
        = re_sub_dependencies deps (assembleManifest rest post) from rfl,
      ih post hvalid]

/-- C9 (amended): when rewriting the target manifest,
`copy_dependencies_to_pyproject` substitutes the generated
DependenciesBlock for every non-overlapping `dependencies = [ ... ]`
block found in the file — not only the first — leaving exactly the
content outside the matched blocks unchanged: for every manifest,
decomposed as the scan finds it into outside text and matched blocks,
the rewritten file is the same manifest with each block replaced by the
generated dependencies and each outside segment kept verbatim. -/
theorem copy_replaces_every_block (deps : List Char)
    (segs : List (List Char × List Char)) (post : List Char)
    (h : validDecomp segs post = true) :
    (copy_dependencies_to_pyproject true (assembleManifest segs post) deps).1
      = substitutedManifest deps segs post := by
  unfold copy_dependencies_to_pyproject
  rw [if_pos rfl]
  exact re_sub_decomp deps segs post h

/-- Witness for the amended C9 at a manifest with two blocks separated by
`x = 1`: both blocks are replaced and the surrounding text is kept. -/
theorem copy_replaces_every_block_witness :
    (copy_dependencies_to_pyproject true
        (assembleManifest
          [("".toList, "dependencies = []".toList),
           ("\nx = 1\n".toList, "dependencies = []".toList)] "\n".toList)
        "dependencies = [\n    \"a\",\n]".toList).1
      = substitutedManifest "dependencies = [\n    \"a\",\n]".toList
          [("".toList, "dependencies = []".toList),
           ("\nx = 1\n".toList, "dependencies = []".toList)] "\n".toList :=
  copy_replaces_every_block "dependencies = [\n    \"a\",\n]".toList
    [("".toList, "dependencies = []".toList),
     ("\nx = 1\n".toList, "dependencies = []".toList)] "\n".toList (by decide)

/-- C10: if the target manifest exists but its content contains no
`dependencies = [ ... ]` block, the file is written back unchanged, the
return value is the character count from `write_text` (an `int`, not a
boolean), and whenever the content is nonempty that value is truthy — so
the dependencies are silently not inserted while the caller reports
success. -/
theorem copy_missing_block_spec (content deps : List Char)
    (h : hasDepsMatch content = false) :
    (copy_dependencies_to_pyproject true content deps).1 = content ∧
    (copy_dependencies_to_pyproject true content deps).2 = .int content.length ∧
    (content ≠ [] →
      pyTruthy (copy_dependencies_to_pyproject true content deps).2 = true) := by
  have hr : re_sub_dependencies deps content = content :=
    reSubAux_no_match deps content.length content h
  unfold copy_dependencies_to_pyproject
  rw [if_pos rfl]
  dsimp only
  rw [hr]
  refine ⟨rfl, rfl, fun hne => ?_⟩
  unfold pyTruthy
  simp [hne]

/-- Witness for C10 at the one-line manifest `x = 1`: the content is kept
verbatim and the return value is truthy. -/
theorem copy_missing_block_spec_witness :
    (copy_dependencies_to_pyproject true "x = 1".toList
        "dependencies = [\n]".toList).1 = "x = 1".toList ∧
    pyTruthy (copy_dependencies_to_pyproject true "x = 1".toList
        "dependencies = [\n]".toList).2 = true :=
  ⟨(copy_missing_block_spec "x = 1".toList "dependencies = [\n]".toList
      (by decide)).1,
   (copy_missing_block_spec "x = 1".toList "dependencies = [\n]".toList
      (by decide)).2.2 (by decide)⟩

